import Mathlib

/- Verification development for the static-path routing-pattern library
   (src/index.ts).  The TypeScript code is modelled shallowly: JavaScript
   strings become lists of characters, thrown errors become an explicit
   error type carried by Except, and the data interpolated into an error
   message (the offending pattern, the offending parameter name and the
   offending params object) becomes the fields of that error value. -/

deriving instance DecidableEq for Except

namespace StaticPath

/-- Character-list form of a string literal, for readable concrete inputs. -/
def chars (s : String) : List Char := s.toList

/-- JavaScript line terminators: the characters that the regexp atom dot
does not match without the dotAll flag (line feed, carriage return, line
separator, paragraph separator). -/
def isLineTerminator (c : Char) : Bool :=
  c = '\n' || c = '\r' || c = '\u2028' || c = '\u2029'

/-- Embeds the first replace inside normalizePattern, the global regexp
that rewrites every run of consecutive slashes to a single slash.  A slash
immediately followed by another slash is dropped, so each maximal run
collapses to its final slash. -/
def collapseSlashes : List Char → List Char
  | [] => []
  | [c] => [c]
  | a :: b :: rest =>
    if a = '/' ∧ b = '/' then collapseSlashes (b :: rest)
    else a :: collapseSlashes (b :: rest)

/-- Embeds the second replace inside normalizePattern, the anchored regexp
that captures a nonempty dot-plus group followed by a final slash and
rewrites the whole match to the captured group.  The dot atom does not
match line terminators, so the rewrite fires exactly when the input ends
with a slash whose preceding content is nonempty and free of line
terminators. -/
def stripTrailingSlash (s : List Char) : List Char :=
  if s.getLast? = some '/' ∧ s.dropLast ≠ [] ∧ s.dropLast.all (fun c => !(isLineTerminator c))
  then s.dropLast else s

/-- Embeds the runtime function normalizePattern: the root pattern is
returned unchanged (case 1); otherwise runs of slashes are collapsed
(case 2) and then a trailing slash is stripped (case 3). -/
def normalizePattern (p : List Char) : List Char :=
  if p = ['/'] then p else stripTrailingSlash (collapseSlashes p)

/-- Helper for the type-level normalizer: rewrites the first occurrence of
two adjacent slashes to a single slash, or returns none when no double
slash occurs.  This is the template-literal match of case 2 of the
NormalizePattern type, which binds the shortest possible leading part. -/
def removeFirstDouble : List Char → Option (List Char)
  | [] => none
  | [_] => none
  | a :: b :: rest =>
    if a = '/' ∧ b = '/' then some (b :: rest)
    else (removeFirstDouble (b :: rest)).map (fun l => a :: l)

/-- Embeds the type-level NormalizePattern from the source: case 1 returns
the root pattern unchanged; case 2 rewrites one double slash and recurses;
case 3 drops a trailing slash and recurses; otherwise the pattern is
returned as is.  Template-literal matching has no line-terminator
restriction, so case 3 fires on every pattern that ends with a slash. -/
def typeNormalizePattern (p : List Char) : List Char :=
  if p = ['/'] then p
  else
    match h : removeFirstDouble p with
    | some q => typeNormalizePattern q
    | none =>
      if h2 : p.getLast? = some '/' then typeNormalizePattern p.dropLast else p
termination_by p.length
decreasing_by
· have key : ∀ l r : List Char, removeFirstDouble l = some r → r.length + 1 = l.length := by
    intro l
    induction l using removeFirstDouble.induct with
    | case1 => intro r hr; simp [removeFirstDouble] at hr
    | case2 c => intro r hr; simp [removeFirstDouble] at hr
    | case3 a b rest hab =>
      intro r hr
      simp only [removeFirstDouble, if_pos hab] at hr
      injection hr with hr
      subst hr
      simp
    | case4 a b rest hab ih =>
      intro r hr
      simp only [removeFirstDouble, if_neg hab, Option.map_eq_some'] at hr
      obtain ⟨r', hr', hmap⟩ := hr
      subst hmap
      have h2 := ih r' hr'
      simp only [List.length_cons] at h2 ⊢
      omega
  have h3 := key p q h
  omega
· have hne : p ≠ [] := by
    intro he
    rw [he] at h2
    simp at h2
  have h3 := List.length_dropLast p
  have h4 := List.length_pos.mpr hne
  omega

/-- One part of a pattern, as in the source Part type: a constant part
carries a literal piece of text (possibly empty) and a param part carries
a parameter name. -/
inductive Part where
  | constant (value : List Char)
  | param (paramName : List Char)
  deriving DecidableEq, Repr

/-- Embeds the behaviour of JavaScript String.prototype.split with the
one-character separator slash: splitting the empty string gives one empty
piece, and every separator occurrence starts a new piece. -/
def splitOnSlash : List Char → List (List Char)
  | [] => [[]]
  | c :: cs =>
    if c = '/' then [] :: splitOnSlash cs
    else
      match splitOnSlash cs with
      | [] => [[c]]
      | s :: rest => (c :: s) :: rest

/-- Embeds the function patternParts: split the pattern on slashes; a
piece that starts with a colon becomes a param part named by the piece
with the single leading colon removed, and any other piece becomes a
constant part holding the piece verbatim. -/
def patternParts (pattern : List Char) : List Part :=
  (splitOnSlash pattern).map fun part =>
    match part with
    | ':' :: name => Part.param name
    | _ => Part.constant part

/-- Value stored under a key of the params object.  The runtime check in
paramValue only distinguishes string values from everything else (absent
keys and non-string values both fail the typeof test), so one constructor
models a string value and one models any non-string value. -/
inductive JSVal where
  | str (value : List Char)
  | nonString
  deriving DecidableEq, Repr

/-- Model of the params object: an association list from parameter names
to values, looked up from the front. -/
def lookupParam : List (List Char × JSVal) → List Char → Option JSVal
  | [], _ => none
  | (k, v) :: rest, name => if k = name then some v else lookupParam rest name

/-- Decidable form of the success condition of paramValue: the params
object holds a string value under the given name. -/
def hasStringValue (params : List (List Char × JSVal)) (name : List Char) : Bool :=
  match lookupParam params name with
  | some (JSVal.str _) => true
  | _ => false

/-- Decidable form of the condition under which rendering one part cannot
throw: a param part needs a string value under its name and a constant
part never throws. -/
def partHasValue (params : List (List Char × JSVal)) : Part → Bool
  | Part.param n => hasStringValue params n
  | Part.constant _ => true

/-- Errors thrown by the library.  Each constructor carries the data that
the corresponding Error message interpolates: the malformed-pattern error
names the normalized pattern that failed the leading-slash check, and the
missing-parameter error names the parameter and echoes the params object. -/
inductive Err where
  | malformedPattern (normalizedPattern : List Char)
  | missingParam (paramName : List Char) (params : List (List Char × JSVal))
  deriving DecidableEq, Repr

/-- Embeds the function paramValue: look the name up in the params object;
a string value is returned as is (the source performs no escaping on it),
and anything else throws the missing-parameter error carrying the name and
the params object. -/
def paramValue (params : List (List Char × JSVal)) (name : List Char) :
    Except Err (List Char) :=
  match lookupParam params name with
  | some (JSVal.str v) => Except.ok v
  | _ => Except.error (Err.missingParam name params)

/-- Embeds the body of the arrow function passed to parts.map inside
paramsToPath: a param part produces the looked-up value via paramValue and
a constant part produces its stored text. -/
def renderPart (params : List (List Char × JSVal)) : Part → Except Err (List Char)
  | Part.param n => paramValue params n
  | Part.constant v => Except.ok v

/-- Embeds the parts.map call of paramsToPath, walking the parts from left
to right; the first thrown error aborts the walk, matching a thrown
JavaScript exception. -/
def renderAll (params : List (List Char × JSVal)) : List Part → Except Err (List (List Char))
  | [] => Except.ok []
  | pt :: rest =>
    match renderPart params pt with
    | Except.error e => Except.error e
    | Except.ok v =>
      match renderAll params rest with
      | Except.error e => Except.error e
      | Except.ok vs => Except.ok (v :: vs)

/-- Embeds paramsToPath: render every part, discard empty strings, join
the remainder with single slashes and put one slash in front. -/
def paramsToPath (parts : List Part) (params : List (List Char × JSVal)) :
    Except Err (List Char) :=
  (renderAll params parts).map fun rendered =>
    '/' :: List.intercalate ['/'] (rendered.filter (fun v => v ≠ []))

/-- A constructed path object.  The rawPattern field models the closed-over
construction argument (the TypeScript closure variable named pattern),
pattern models the exposed normalized pattern property and parts models the
exposed parts property. -/
structure PathObj where
  rawPattern : List Char
  pattern : List Char
  parts : List Part
  deriving DecidableEq, Repr

/-- Embeds the function path: derive the parts and the normalized pattern,
then fail with the malformed-pattern error naming the normalized pattern
unless the normalized pattern starts with a slash.  Construction either
throws here, once, or returns the finished object; calls are modelled
separately by callPath and never reach this check. -/
def path (pattern : List Char) : Except Err PathObj :=
  if (normalizePattern pattern).head? = some '/' then
    Except.ok ⟨pattern, normalizePattern pattern, patternParts pattern⟩
  else
    Except.error (Err.malformedPattern (normalizePattern pattern))

/-- Embeds invoking a constructed path object on a params object. -/
def callPath (p : PathObj) (params : List (List Char × JSVal)) : Except Err (List Char) :=
  paramsToPath p.parts params

/-- Embeds the path property of a path object (subpath composition): build
a new path from the original construction pattern, one slash, and the
subpattern, running the whole construction again. -/
def composePath (p : PathObj) (subpattern : List Char) : Except Err PathObj :=
  path (p.rawPattern ++ '/' :: subpattern)

/-- Embeds the type-level PathParamNames from the source, which derives
the parameter-name set of a pattern.  Case 1 (the pattern starts with a
colon and a slash follows): the shortest-match rule binds the name to the
run of characters before the first slash, and recursion continues after
that slash.  Case 2 (the pattern starts with a colon and no slash
follows): the rest of the pattern is the name.  Case 3 (a colon occurs
later): recursion restarts at the first colon.  Base case: no colon at
all derives nothing. -/
def pathParamNames : List Char → List (List Char)
  | [] => []
  | c :: rest =>
    if c = ':' then
      if (rest.dropWhile (fun x => x ≠ '/')).isEmpty then
        [rest.takeWhile (fun x => x ≠ '/')]
      else
        rest.takeWhile (fun x => x ≠ '/') ::
          pathParamNames (rest.dropWhile (fun x => x ≠ '/')).tail
    else pathParamNames (rest.dropWhile (fun x => x ≠ ':'))
termination_by p => p.length
decreasing_by
· simp only [List.length_cons]
  exact Nat.lt_succ_of_le
    ((List.tail_sublist _).length_le.trans (List.dropWhile_sublist _).length_le)
· simp only [List.length_cons]
  exact Nat.lt_succ_of_le (List.dropWhile_sublist _).length_le

/-- Modelled from the spec: the left-to-right scan of section 4.2, written
independently of the source recursion.  Scanning left to right, each
parameter marker starts one parameter whose name is the following maximal
run of non-separator characters, scanning resumes after that run, and
everything between markers is ignored. -/
def scanNames : List Char → List (List Char)
  | [] => []
  | c :: cs =>
    if c = ':' then
      cs.takeWhile (fun x => x ≠ '/') :: scanNames (cs.dropWhile (fun x => x ≠ '/'))
    else scanNames cs
termination_by p => p.length
decreasing_by
· simp only [List.length_cons]
  exact Nat.lt_succ_of_le (List.dropWhile_sublist _).length_le
· simp only [List.length_cons]
  exact Nat.lt_succ_of_le (Nat.le_refl _)

/-- Adjacent double slash detector, used to state what collapsing runs of
slashes achieves. -/
def hasDoubleSlash : List Char → Bool
  | [] => false
  | [_] => false
  | a :: b :: rest => (a = '/' && b = '/') || hasDoubleSlash (b :: rest)

/-- Collapsing slashes keeps the first character of the input. -/
theorem collapseSlashes_head (l : List Char) : (collapseSlashes l).head? = l.head? := by
  induction l using collapseSlashes.induct with
  | case1 => rfl
  | case2 c => rfl
  | case3 a b rest hab ih =>
    simp only [collapseSlashes, if_pos hab]
    rw [ih]
    obtain ⟨ha, hb⟩ := hab
    rw [ha, hb]
    rfl
  | case4 a b rest hab ih =>
    simp only [collapseSlashes, if_neg hab, List.head?_cons]

/-- The output of collapsing slashes contains no adjacent double slash. -/
theorem hasDoubleSlash_collapseSlashes (l : List Char) :
    hasDoubleSlash (collapseSlashes l) = false := by
  induction l using collapseSlashes.induct with
  | case1 => rfl
  | case2 c => rfl
  | case3 a b rest hab ih =>
    simp only [collapseSlashes, if_pos hab]
    exact ih
  | case4 a b rest hab ih =>
    simp only [collapseSlashes, if_neg hab]
    cases hc : collapseSlashes (b :: rest) with
    | nil => rfl
    | cons x xs =>
      have hx : x = b := by
        have h1 := collapseSlashes_head (b :: rest)
        rw [hc] at h1
        simpa using h1
      rw [hc] at ih
      simp only [hasDoubleSlash, ih, Bool.or_false]
      subst hx
      simp only [Bool.and_eq_false_iff, decide_eq_false_iff_not]
      tauto

/-- A list without adjacent double slashes is unchanged by collapsing. -/
theorem collapseSlashes_eq_self (l : List Char) :
    hasDoubleSlash l = false → collapseSlashes l = l := by
  induction l using hasDoubleSlash.induct with
  | case1 => intro _; rfl
  | case2 c => intro _; rfl
  | case3 a b rest ih =>
    intro h
    simp only [hasDoubleSlash, Bool.or_eq_false_iff, Bool.and_eq_false_iff,
      decide_eq_false_iff_not] at h
    have hab : ¬(a = '/' ∧ b = '/') := by tauto
    simp only [collapseSlashes, if_neg hab]
    rw [ih h.2]

/-- Dropping the last element cannot create an adjacent double slash. -/
theorem hasDoubleSlash_dropLast (l : List Char) :
    hasDoubleSlash l = false → hasDoubleSlash l.dropLast = false := by
  induction l using hasDoubleSlash.induct with
  | case1 => intro _; rfl
  | case2 c => intro _; rfl
  | case3 a b rest ih =>
    intro h
    simp only [hasDoubleSlash, Bool.or_eq_false_iff] at h
    have h2 := ih h.2
    cases rest with
    | nil => rfl
    | cons r rs =>
      simp only [List.dropLast_cons₂] at h2 ⊢
      simp only [hasDoubleSlash, Bool.or_eq_false_iff]
      exact ⟨h.1, h2⟩

/-- Any list followed by two slashes contains an adjacent double slash. -/
theorem hasDoubleSlash_concat (t : List Char) :
    hasDoubleSlash (t ++ ['/', '/']) = true := by
  induction t using hasDoubleSlash.induct with
  | case1 => rfl
  | case2 c => simp [hasDoubleSlash]
  | case3 a b rest ih =>
    simp only [List.cons_append] at ih ⊢
    simp only [hasDoubleSlash, ih, Bool.or_true]

/-- A list ending in a slash is its front part followed by that slash. -/
theorem dropLast_append_slash (l : List Char) (h : l.getLast? = some '/') :
    l.dropLast ++ ['/'] = l := by
  have hne : l ≠ [] := by intro he; rw [he] at h; simp at h
  have h2 := List.dropLast_append_getLast hne
  rw [List.getLast?_eq_getLast _ hne, Option.some_inj] at h
  rw [h] at h2
  exact h2

/-- Stripping is the identity on a list that does not end in a slash. -/
theorem stripTrailingSlash_eq_self (s : List Char) (h : s.getLast? ≠ some '/') :
    stripTrailingSlash s = s := by
  unfold stripTrailingSlash
  rw [if_neg]
  intro hc
  exact h hc.1

/-- C9 helper: the result of the full normalizer is a fixed point of the
stripping stage whenever it already has no adjacent double slash. -/
theorem stripTrailingSlash_stable (cp : List Char) (hd : hasDoubleSlash cp = false) :
    stripTrailingSlash (stripTrailingSlash cp) = stripTrailingSlash cp := by
  by_cases hcond : cp.getLast? = some '/' ∧ cp.dropLast ≠ [] ∧
      cp.dropLast.all (fun c => !(isLineTerminator c))
  · have hin : stripTrailingSlash cp = cp.dropLast := by
      rw [stripTrailingSlash, if_pos hcond]
    rw [hin]
    apply stripTrailingSlash_eq_self
    intro hlast
    have e1 := dropLast_append_slash _ hlast
    have e2 := dropLast_append_slash _ hcond.1
    have e3 : cp = cp.dropLast.dropLast ++ ['/', '/'] := by
      calc cp = cp.dropLast ++ ['/'] := e2.symm
        _ = (cp.dropLast.dropLast ++ ['/']) ++ ['/'] := by rw [e1]
        _ = cp.dropLast.dropLast ++ ['/', '/'] := by rw [List.append_assoc]; rfl
    rw [e3, hasDoubleSlash_concat] at hd
    exact Bool.true_eq_false.mp hd
  · have hin : stripTrailingSlash cp = cp := by
      rw [stripTrailingSlash, if_neg hcond]
    rw [hin]
    exact hin

/-- Stripping a trailing slash cannot create an adjacent double slash. -/
theorem hasDoubleSlash_strip (s : List Char) (h : hasDoubleSlash s = false) :
    hasDoubleSlash (stripTrailingSlash s) = false := by
  unfold stripTrailingSlash
  split
  · exact hasDoubleSlash_dropLast s h
  · exact h

/-- The head of a nonempty dropWhile result falsifies the predicate. -/
theorem dropWhile_head_false {α : Type} (f : α → Bool) (l : List α) :
    ∀ (x : α) (xs : List α), l.dropWhile f = x :: xs → f x = false := by
  induction l with
  | nil => intro x xs h; simp [List.dropWhile] at h
  | cons c cs ih =>
    intro x xs h
    rw [List.dropWhile_cons] at h
    by_cases hc : f c = true
    · rw [if_pos hc] at h
      exact ih x xs h
    · rw [if_neg hc] at h
      have h1 : c = x := (List.cons.injEq c cs x xs ▸ h).1
      rw [← h1]
      exact Bool.not_eq_true (f c) ▸ hc

/-- The scan for parameter names ignores every character before the first
marker. -/
theorem scanNames_dropWhile (l : List Char) :
    scanNames (l.dropWhile (fun x => x ≠ ':')) = scanNames l := by
  induction l using scanNames.induct with
  | case1 => rfl
  | case2 cs ih =>
    rw [List.dropWhile_cons]
    simp
  | case3 c cs hc ih =>
    rw [List.dropWhile_cons]
    have hgo : decide (c ≠ ':') = true := by simp [hc]
    rw [hgo, if_pos rfl, ih]
    have h2 : scanNames (c :: cs) = scanNames cs := by
      rw [scanNames, if_neg hc]
    rw [h2]

/-- C7: for every pattern string, the parameter names derived by the
source derivation (the type-level PathParamNames recursion embedded as
pathParamNames) are exactly those produced by the left-to-right scan of
the claim: one name per occurrence of the marker character, each name
being the maximal following run of non-separator characters, with a
marker inside a segment (as in the pattern slash-a-colon-b) included, no
name dropped and none invented; the two derivations agree on every
pattern, name for name. -/
theorem c7_pathParamNames_eq_scanNames : ∀ p : List Char, pathParamNames p = scanNames p := by
  intro p
  induction p using pathParamNames.induct with
  | case1 => rw [pathParamNames, scanNames]
  | case2 cs hemp =>
    have hdw : List.dropWhile (fun x => x ≠ '/') cs = [] := List.isEmpty_iff.mp hemp
    have hL : pathParamNames (':' :: cs) = [List.takeWhile (fun x => x ≠ '/') cs] := by
      rw [pathParamNames, if_pos rfl, if_pos hemp]
    have hR : scanNames (':' :: cs) =
        List.takeWhile (fun x => x ≠ '/') cs ::
          scanNames (List.dropWhile (fun x => x ≠ '/') cs) := by
      rw [scanNames, if_pos rfl]
    have h0 : scanNames ([] : List Char) = [] := by rw [scanNames]
    rw [hL, hR, hdw, h0]
  | case3 cs hemp ih =>
    cases hdw : List.dropWhile (fun x => x ≠ '/') cs with
    | nil => rw [hdw] at hemp; simp at hemp
    | cons d dt =>
      have hdf := dropWhile_head_false (fun x => x ≠ '/') cs d dt hdw
      have hd : d = '/' := by simpa using hdf
      rw [hdw] at ih
      simp only [List.tail_cons] at ih
      have hL : pathParamNames (':' :: cs) =
          List.takeWhile (fun x => x ≠ '/') cs ::
            pathParamNames (List.dropWhile (fun x => x ≠ '/') cs).tail := by
        rw [pathParamNames, if_pos rfl, if_neg hemp]
      have hR : scanNames (':' :: cs) =
          List.takeWhile (fun x => x ≠ '/') cs ::
            scanNames (List.dropWhile (fun x => x ≠ '/') cs) := by
        rw [scanNames, if_pos rfl]
      have hstep : scanNames ('/' :: dt) = scanNames dt := by
        rw [scanNames, if_neg (by decide : ¬('/' : Char) = ':')]
      rw [hL, hR, hdw]
      simp only [List.tail_cons]
      rw [ih, hd, hstep]
  | case4 c cs hc ih =>
    have hL : pathParamNames (c :: cs) =
        pathParamNames (List.dropWhile (fun x => x ≠ ':') cs) := by
      rw [pathParamNames, if_neg hc]
    have hR : scanNames (c :: cs) = scanNames cs := by
      rw [scanNames, if_neg hc]
    rw [hL, ih, scanNames_dropWhile, hR]

/-- C9: the runtime normalizer is idempotent; normalizing an already
normalized pattern yields the same pattern, for every pattern string. -/
theorem c9_normalizePattern_idempotent :
    ∀ p : List Char, normalizePattern (normalizePattern p) = normalizePattern p := by
  intro p
  by_cases hp : p = ['/']
  · rw [hp]
    rfl
  · have h1 : normalizePattern p = stripTrailingSlash (collapseSlashes p) := by
      rw [normalizePattern, if_neg hp]
    rw [h1]
    by_cases hroot : stripTrailingSlash (collapseSlashes p) = ['/']
    · rw [hroot]
      rfl
    · have h2 : normalizePattern (stripTrailingSlash (collapseSlashes p)) =
          stripTrailingSlash (collapseSlashes (stripTrailingSlash (collapseSlashes p))) := by
        rw [normalizePattern, if_neg hroot]
      rw [h2,
        collapseSlashes_eq_self _ (hasDoubleSlash_strip _ (hasDoubleSlash_collapseSlashes p))]
      exact stripTrailingSlash_stable _ (hasDoubleSlash_collapseSlashes p)

/-- Failing paramValue lookups produce exactly the missing-parameter error
for that name and params object. -/
theorem paramValue_error (params : List (List Char × JSVal)) (n : List Char) (e : Err) :
    paramValue params n = Except.error e →
    e = Err.missingParam n params ∧ hasStringValue params n = false := by
  unfold paramValue hasStringValue
  cases lookupParam params n with
  | none => intro h; injection h with h; exact ⟨h.symm, rfl⟩
  | some v =>
    cases v with
    | str s => intro h; simp at h
    | nonString => intro h; injection h with h; exact ⟨h.symm, rfl⟩

/-- A paramValue lookup succeeds when the params object has a string value
under the name. -/
theorem paramValue_ok (params : List (List Char × JSVal)) (n : List Char) :
    hasStringValue params n = true → ∃ v, paramValue params n = Except.ok v := by
  unfold paramValue hasStringValue
  cases lookupParam params n with
  | none => intro h; simp at h
  | some v =>
    cases v with
    | str s => intro _; exact ⟨s, rfl⟩
    | nonString => intro h; simp at h

/-- Every error produced by walking the parts is a missing-parameter error
for a param part of the walked list whose lookup fails. -/
theorem renderAll_error_shape (parts : List Part) (params : List (List Char × JSVal)) :
    ∀ e, renderAll params parts = Except.error e →
    ∃ n, e = Err.missingParam n params ∧ Part.param n ∈ parts ∧
      hasStringValue params n = false := by
  induction parts with
  | nil => intro e h; simp [renderAll] at h
  | cons pt rest ih =>
    intro e h
    rw [renderAll] at h
    cases hr : renderPart params pt with
    | error e1 =>
      rw [hr] at h
      injection h with h
      cases pt with
      | param n =>
        have h2 := paramValue_error params n e1 hr
        exact ⟨n, h ▸ h2.1, List.mem_cons.mpr (Or.inl rfl), h2.2⟩
      | constant v => simp [renderPart] at hr
    | ok v =>
      rw [hr] at h
      cases hr2 : renderAll params rest with
      | error e2 =>
        rw [hr2] at h
        injection h with h
        obtain ⟨n, h3, h4, h5⟩ := ih e2 hr2
        exact ⟨n, h ▸ h3, List.mem_cons.mpr (Or.inr h4), h5⟩
      | ok vs => rw [hr2] at h; simp at h

/-- Walking the parts fails whenever some param part of the list has no
string value in the params object. -/
theorem renderAll_error_exists (parts : List Part) (params : List (List Char × JSVal)) :
    ∀ n, Part.param n ∈ parts → hasStringValue params n = false →
    ∃ e, renderAll params parts = Except.error e := by
  induction parts with
  | nil => intro n hmem _; simp at hmem
  | cons pt rest ih =>
    intro n hmem hbad
    rw [renderAll]
    cases hr : renderPart params pt with
    | error e1 => exact ⟨e1, rfl⟩
    | ok v =>
      rcases List.mem_cons.mp hmem with hhead | htail
      · exfalso
        rw [← hhead] at hr
        have hr2 : paramValue params n = Except.ok v := hr
        unfold paramValue at hr2
        unfold hasStringValue at hbad
        cases h3 : lookupParam params n with
        | none => rw [h3] at hr2; simp at hr2
        | some w =>
          cases w with
          | str s => rw [h3] at hbad; simp at hbad
          | nonString => rw [h3] at hr2; simp at hr2
      · obtain ⟨e2, he2⟩ := ih n htail hbad
        rw [he2]
        exact ⟨e2, rfl⟩

/-- Walking the parts succeeds when every param part of the list has a
string value in the params object. -/
theorem renderAll_ok (parts : List Part) (params : List (List Char × JSVal)) :
    parts.all (partHasValue params) = true →
    ∃ vs, renderAll params parts = Except.ok vs := by
  induction parts with
  | nil => intro _; exact ⟨[], rfl⟩
  | cons pt rest ih =>
    intro h
    rw [List.all_cons, Bool.and_eq_true] at h
    obtain ⟨vs, hvs⟩ := ih h.2
    rw [renderAll]
    cases pt with
    | param n =>
      obtain ⟨v, hv⟩ := paramValue_ok params n h.1
      rw [show renderPart params (Part.param n) = paramValue params n from rfl, hv, hvs]
      exact ⟨v :: vs, rfl⟩
    | constant v =>
      rw [show renderPart params (Part.constant v) = Except.ok v from rfl, hvs]
      exact ⟨v :: vs, rfl⟩

/-- A successful construction returns exactly the object formed from the
construction pattern, its normalization and its parts. -/
theorem path_ok_elim (q : List Char) (p : PathObj) (h : path q = Except.ok p) :
    p = PathObj.mk q (normalizePattern q) (patternParts q) := by
  unfold path at h
  by_cases hc : (normalizePattern q).head? = some '/'
  · rw [if_pos hc] at h
    injection h with h
    exact h.symm
  · rw [if_neg hc] at h
    simp at h

/-- C1: evaluating the code at the failing input of the claim shows that
substituted parameter values are not percent-encoded: the path built from
the courses pattern, called with the value the-slash-course, returns the
raw value with its slash intact instead of the escaped form with percent
two F that the claim, the spec and the repository test suite require. -/
theorem c1_no_escaping_eval :
    (path (chars ("/courses/:courseId"))).map
      (fun p => callPath p [(chars ("courseId"), JSVal.str (chars ("the/course")))]) =
      Except.ok (Except.ok (chars ("/courses/the/course"))) ∧
    chars ("/courses/the/course") ≠ chars ("/courses/the%2Fcourse") := by
  exact ⟨by decide, by decide⟩

/-- C2: evaluating the code at the failing input shows that the trailing
separator of a pattern whose content holds a line terminator is not
removed, because the dot atom of the anchored regexp does not match line
terminators; the type-level NormalizePattern, which the function is
documented to match exactly, does remove it. -/
theorem c2_trailing_slash_eval :
    normalizePattern (chars ("/a\n/")) = chars ("/a\n/") ∧
    typeNormalizePattern (chars ("/a\n/")) = chars ("/a\n") ∧
    chars ("/a\n/") ≠ chars ("/a\n") := by
  refine ⟨by decide, ?_, by decide⟩
  have h0 : chars ("/a\n/") = ['/', 'a', '\n', '/'] := rfl
  have h1 : chars ("/a\n") = ['/', 'a', '\n'] := rfl
  rw [h0, h1]
  simp [typeNormalizePattern, removeFirstDouble]

/-- C3: composing a successfully constructed path object with a subpattern
equals constructing directly from the original construction pattern, one
separator, and the subpattern; consequently the composed pattern is the
same with or without a leading separator on the subpattern, and composing
the root path with the lessons subpattern yields the lessons pattern. -/
theorem c3_compose (q : List Char) (p : PathObj) (s : List Char)
    (hp : path q = Except.ok p) :
    composePath p s = path (q ++ '/' :: s) ∧
    (path (chars ("/courses/:courseId"))).map
      (fun pc => (composePath pc (chars ("/lessons/:lessonId"))).map (fun p2 => p2.pattern)) =
      Except.ok (Except.ok (chars ("/courses/:courseId/lessons/:lessonId"))) ∧
    (path (chars ("/courses/:courseId"))).map
      (fun pc => (composePath pc (chars ("lessons/:lessonId"))).map (fun p2 => p2.pattern)) =
      Except.ok (Except.ok (chars ("/courses/:courseId/lessons/:lessonId"))) ∧
    (path (chars ("/"))).map
      (fun pc => (composePath pc (chars ("/lessons"))).map (fun p2 => p2.pattern)) =
      Except.ok (Except.ok (chars ("/lessons"))) := by
  refine ⟨?_, by decide, by decide, by decide⟩
  rw [path_ok_elim q p hp]
  rfl

/-- Witness for C3 at the concrete courses pattern and lessons subpattern. -/
theorem c3_compose_witness :
    composePath
      (PathObj.mk (chars ("/courses/:courseId")) (chars ("/courses/:courseId"))
        (patternParts (chars ("/courses/:courseId")))) (chars ("lessons")) =
      path (chars ("/courses/:courseId") ++ '/' :: chars ("lessons")) :=
  (c3_compose (chars ("/courses/:courseId")) _ (chars ("lessons")) (by decide)).1

/-- C4 counterexample: a params object carrying every required parameter
plus an extra key is not rejected at runtime; the call succeeds and the
extra key is ignored, contradicting the claim that extra keys are likewise
rejected at runtime. -/
theorem c4_extra_keys_counterexample :
    (path (chars ("/courses/:courseId"))).map
      (fun p => callPath p [(chars ("courseId"), JSVal.str (chars ("x"))),
        (chars ("extra"), JSVal.str (chars ("y")))]) =
      Except.ok (Except.ok (chars ("/courses/x"))) := by
  decide

/-- C4 amended: the runtime check enforces only the presence of every
derived parameter with a string value.  Every call-time error is the
missing-parameter error naming a failing param part of the walked segment
list and echoing the params object; a call fails whenever some required
parameter has no string value; and a params object with an extra key
beyond the derived set is accepted, the extra key being ignored. -/
theorem c4_runtime_param_check :
    (∀ (parts : List Part) (params : List (List Char × JSVal)) (e : Err),
      paramsToPath parts params = Except.error e →
      ∃ n, e = Err.missingParam n params ∧ Part.param n ∈ parts ∧
        hasStringValue params n = false) ∧
    (∀ (parts : List Part) (params : List (List Char × JSVal)) (n : List Char),
      Part.param n ∈ parts → hasStringValue params n = false →
      (paramsToPath parts params).isOk = false) ∧
    (path (chars ("/courses/:courseId"))).map
      (fun p => callPath p [(chars ("courseId"), JSVal.str (chars ("cid"))),
        (chars ("other"), JSVal.str (chars ("o")))]) =
      Except.ok (Except.ok (chars ("/courses/cid"))) := by
  refine ⟨?_, ?_, by decide⟩
  · intro parts params e h
    unfold paramsToPath at h
    cases hr : renderAll params parts with
    | error e1 =>
      rw [hr] at h
      injection h with h
      exact h ▸ renderAll_error_shape parts params e1 hr
    | ok vs => rw [hr] at h; simp [Except.map] at h
  · intro parts params n hmem hbad
    obtain ⟨e, he⟩ := renderAll_error_exists parts params n hmem hbad
    unfold paramsToPath
    rw [he]
    rfl

/-- Witness for C4 at a concrete call with a missing parameter. -/
theorem c4_runtime_param_check_witness :
    (paramsToPath (patternParts (chars ("/courses/:courseId"))) []).isOk = false :=
  c4_runtime_param_check.2.1 (patternParts (chars ("/courses/:courseId"))) []
    (chars ("courseId")) (by decide) (by decide)

/-- C5: construction fails exactly when the normalized pattern does not
start with the separator; the error carries the offending normalized
pattern literally; the concrete pattern without a leading separator fails
naming that exact string; and every call-time error is a missing-parameter
error, so the malformed-pattern failure can only happen at construction
time. -/
theorem c5_malformed_pattern :
    (∀ q : List Char, (path q).isOk = false ↔ ¬(normalizePattern q).head? = some '/') ∧
    (∀ (q : List Char) (e : Err), path q = Except.error e →
      e = Err.malformedPattern (normalizePattern q)) ∧
    path (chars ("courses/:courseId")) =
      Except.error (Err.malformedPattern (chars ("courses/:courseId"))) ∧
    (∀ (parts : List Part) (params : List (List Char × JSVal)) (e : Err),
      paramsToPath parts params = Except.error e →
      ∃ n ps, e = Err.missingParam n ps) := by
  refine ⟨?_, ?_, by decide, ?_⟩
  · intro q
    unfold path
    by_cases hc : (normalizePattern q).head? = some '/'
    · rw [if_pos hc]
      simp [Except.isOk, Except.toBool, hc]
    · rw [if_neg hc]
      simp [Except.isOk, Except.toBool, hc]
  · intro q e h
    unfold path at h
    by_cases hc : (normalizePattern q).head? = some '/'
    · rw [if_pos hc] at h
      simp at h
    · rw [if_neg hc] at h
      injection h with h
      exact h.symm
  · intro parts params e h
    unfold paramsToPath at h
    cases hr : renderAll params parts with
    | error e1 =>
      rw [hr] at h
      injection h with h
      obtain ⟨n, hn, _, _⟩ := renderAll_error_shape parts params e1 hr
      exact ⟨n, params, h ▸ hn⟩
    | ok vs => rw [hr] at h; simp [Except.map] at h

/-- Witness for C5 at a concrete pattern without a leading separator. -/
theorem c5_malformed_pattern_witness :
    (path (chars ("courses/abc"))).isOk = false :=
  (c5_malformed_pattern.1 (chars ("courses/abc"))).mpr (by decide)

/-- C6 counterexample: the path built from the pattern with a repeated
separator stores parts derived from the raw pattern, and re-deriving the
segments from its stored normalized pattern does not reproduce them. -/
theorem c6_self_consistency_counterexample :
    (path (chars ("/one//two"))).map
      (fun p => decide (patternParts p.pattern = p.parts)) = Except.ok false := by
  decide

/-- C6 amended: for every path object constructed from an already
normalized pattern, re-running segment decomposition on the stored
normalized pattern yields exactly the stored segment sequence; for
un-normalized construction patterns the stored parts come from the raw
pattern and the invariant fails. -/
theorem c6_parts_consistency_normalized (q : List Char) (p : PathObj)
    (hq : normalizePattern q = q) (hp : path q = Except.ok p) :
    patternParts p.pattern = p.parts := by
  rw [path_ok_elim q p hp]
  show patternParts (normalizePattern q) = patternParts q
  rw [hq]

/-- Witness for C6 at the concrete normalized courses pattern. -/
theorem c6_parts_consistency_normalized_witness :
    patternParts (PathObj.mk (chars ("/courses")) (chars ("/courses"))
      (patternParts (chars ("/courses")))).pattern =
    (PathObj.mk (chars ("/courses")) (chars ("/courses"))
      (patternParts (chars ("/courses")))).parts :=
  c6_parts_consistency_normalized (chars ("/courses")) _ (by decide) (by decide)

/-- C8: for every part list and params object for which the left-to-right
walk succeeds, the generated string is one separator followed by the walk
results with empty strings discarded, joined by single separators; in
particular the root path called with the empty mapping returns the root
string and the path built from the doubled-separator pattern returns the
collapsed concrete string. -/
theorem c8_generation_pipeline (parts : List Part) (params : List (List Char × JSVal))
    (rendered : List (List Char)) (h : renderAll params parts = Except.ok rendered) :
    paramsToPath parts params =
      Except.ok ('/' :: List.intercalate ['/'] (rendered.filter (fun v => v ≠ []))) ∧
    (path (chars ("/"))).map (fun p => callPath p []) = Except.ok (Except.ok (chars ("/"))) ∧
    (path (chars ("/one//two"))).map (fun p => callPath p []) =
      Except.ok (Except.ok (chars ("/one/two"))) := by
  refine ⟨?_, by decide, by decide⟩
  unfold paramsToPath
  rw [h]
  rfl

/-- Witness for C8 at the doubled-separator pattern and empty params. -/
theorem c8_generation_pipeline_witness :
    paramsToPath (patternParts (chars ("/one//two"))) [] = Except.ok (chars ("/one/two")) := by
  have h := (c8_generation_pipeline (patternParts (chars ("/one//two"))) []
    [[], chars ("one"), [], chars ("two")] (by decide)).1
  exact h.trans (by decide)

/-- C10: a call whose params object supplies a string value for every
param part succeeds, and a parameter supplied as the empty string is
discarded by the empty-string filter, so the courses path called with an
empty course identifier returns the bare courses segment with no trailing
separator. -/
theorem c10_empty_param_value (parts : List Part) (params : List (List Char × JSVal))
    (h : parts.all (partHasValue params) = true) :
    (paramsToPath parts params).isOk = true ∧
    (path (chars ("/courses/:courseId"))).map
      (fun p => callPath p [(chars ("courseId"), JSVal.str [])]) =
      Except.ok (Except.ok (chars ("/courses"))) := by
  refine ⟨?_, by decide⟩
  obtain ⟨vs, hvs⟩ := renderAll_ok parts params h
  unfold paramsToPath
  rw [hvs]
  rfl

/-- Witness for C10 at the courses path with an empty parameter value. -/
theorem c10_empty_param_value_witness :
    (paramsToPath (patternParts (chars ("/courses/:courseId")))
      [(chars ("courseId"), JSVal.str [])]).isOk = true :=
  (c10_empty_param_value (patternParts (chars ("/courses/:courseId")))
    [(chars ("courseId"), JSVal.str [])] (by decide)).1

end StaticPath
